import Mathlib

/-!
# Verification of the consume2 consumer/pipeline composition library

Shallow embedding of the Go package `consume2`.  A Go `Consumer[T]` is an
interface value with mutable state and two methods, `CanConsume() bool` and
`Consume(value T)`.  We model a consumer implementation as a state-transition
`Machine`: `canConsume` returns the boolean answer together with the updated
state (the `multiConsumer` implementation compacts its member list inside
`CanConsume`, so the query can mutate state), and `consume` returns the state
after accepting a value.

The repository contains two variants of the library:
* `consume.go`, where `Consume` panics when `CanConsume` is false
  (`MustCanConsume`), and
* the variant in `src/unnamed/part_001`, where `Consume` silently ignores a
  value pushed after `CanConsume` turned false.

Both variants share the same `CanConsume` logic and the same forwarding logic;
they differ only on pushes made after `CanConsume` already returned false.
The machines below embed the total (silent-drop) bodies of `part_001`; on any
trace where `Consume` is only invoked while `CanConsume` holds (which the
drivers `FromSlice` etc. guarantee) the two variants coincide.  Where a claim
is specifically about the panicking variant we model the panic explicitly with
`Option` (`none` = panic), in definitions suffixed `Go`.

Go `int` fields (`start`, `end`, `idx`, page numbers, page sizes) are modeled
as `Int`.  Overflow never matters here: `idx` starts at 0 and is incremented
only while `idx < end`, so it stays in `[0, max end 0]`.
-/

namespace Consume2

/-- State-transition model of a Go `Consumer[T]` implementation with state
type `σ`: `canConsume` is the `CanConsume` method (answer plus updated
receiver state), `consume` is the `Consume` method. -/
structure Machine (T : Type) (σ : Type) where
  canConsume : σ → Bool × σ
  consume : σ → T → σ

/-- One call a driver can make on a consumer: a `CanConsume` query or a
`Consume` push. -/
inductive Call (T : Type) where
  | query : Call T
  | push : T → Call T

/-- Effect of one call on the consumer state. -/
def Machine.stepCall {T σ : Type} (M : Machine T σ) : Call T → σ → σ
  | Call.query, s => (M.canConsume s).2
  | Call.push v, s => M.consume s v

/-- Effect of a sequence of calls on the consumer state. -/
def Machine.runCalls {T σ : Type} (M : Machine T σ) : List (Call T) → σ → σ
  | [], s => s
  | c :: cs, s => M.runCalls cs (M.stepCall c s)

/-- `appendConsumer` (both variants): the state is the slice `*aSlicePtr` the
consumer appends to; `CanConsume` always returns true. -/
def appendConsumer (T : Type) : Machine T (List T) where
  canConsume s := (true, s)
  consume s v := s ++ [v]

/-- `nilConsumer`: `CanConsume` always returns false.  In `part_001` its
`Consume` does nothing; in `consume.go` it panics (a panicking call ends the
trace, so the no-op body only adds traces and is conservative for the
invariants proved below). -/
def nilConsumer (T : Type) : Machine T Unit where
  canConsume s := (false, s)
  consume s _ := s

/-- Fields of the Go struct `sliceConsumer[T]`: the inner consumer's state,
the window bounds `start`/`end` (named `stop` here since `end` is a Lean
keyword) and the count `idx` of values seen so far. -/
structure SliceState (σ : Type) where
  consumer : σ
  start : Int
  stop : Int
  idx : Int
deriving DecidableEq, Repr

/-- `sliceConsumer[T]` methods (`part_001` lines 230-242):
`CanConsume` is `s.idx < s.end && s.consumer.CanConsume()` (short-circuit:
the inner consumer is queried only when `idx < end`); `Consume` returns early
when `idx >= end`, forwards when `idx >= start`, and increments `idx`.
(`consume.go` queries the conjuncts in the other order and panics instead of
returning early; the answers agree.) -/
def sliceConsumer {T σ : Type} (inner : Machine T σ) : Machine T (SliceState σ) where
  canConsume s :=
    if s.idx < s.stop then
      let p := inner.canConsume s.consumer
      (p.1, { s with consumer := p.2 })
    else (false, s)
  consume s v :=
    if s.stop ≤ s.idx then s
    else if s.start ≤ s.idx then
      { s with consumer := inner.consume s.consumer v, idx := s.idx + 1 }
    else { s with idx := s.idx + 1 }

/-- The factory `Slice(consumer, start, end)`: initial state with `idx = 0`. -/
def Slice {σ : Type} (innerInit : σ) (start stop : Int) : SliceState σ :=
  { consumer := innerInit, start := start, stop := stop, idx := 0 }

/-- `filterConsumer[T]`: `CanConsume` is the embedded inner consumer's
(method promotion); `Consume` forwards only values satisfying the filter. -/
def filterConsumer {T σ : Type} (inner : Machine T σ) (filter : T → Bool) :
    Machine T σ where
  canConsume := inner.canConsume
  consume s v := if filter v then inner.consume s v else s

/-- `filterpConsumer[T]`: the Go filter takes `*T` and may mutate the pointed
value; we model it as a function returning the verdict together with the
(possibly rewritten) value.  `Consume` forwards the rewritten value when the
verdict is true. -/
def filterpConsumer {T σ : Type} (inner : Machine T σ) (filter : T → Bool × T) :
    Machine T σ where
  canConsume := inner.canConsume
  consume s v :=
    let p := filter v
    if p.1 then inner.consume s p.2 else s

/-- `mapConsumer[T,U]`: forwards `mapper value` to the inner `Consumer[U]`. -/
def mapConsumer {T U σ : Type} (inner : Machine U σ) (mapper : T → U) :
    Machine T σ where
  canConsume := inner.canConsume
  consume s v := inner.consume s (mapper v)

/-- `maybeMapConsumer[T,U]`: the mapper returns `(U, bool)`; forwards only
when the bool is true. -/
def maybeMapConsumer {T U σ : Type} (inner : Machine U σ) (mapper : T → U × Bool) :
    Machine T σ where
  canConsume := inner.canConsume
  consume s v :=
    let p := mapper v
    if p.2 then inner.consume s p.1 else s

/-- Fields of the Go struct `takeWhileConsumer[T]`. -/
structure TakeWhileState (σ : Type) where
  consumer : σ
  done : Bool
deriving DecidableEq, Repr

/-- `takeWhileConsumer[T]` methods (`part_001` lines 331-344):
`CanConsume` is `!t.done && t.consumer.CanConsume()`; `Consume` returns early
when latched, latches `done` on the first filter failure without forwarding,
and otherwise forwards. -/
def takeWhileConsumer {T σ : Type} (inner : Machine T σ) (filter : T → Bool) :
    Machine T (TakeWhileState σ) where
  canConsume s :=
    if s.done then (false, s)
    else
      let p := inner.canConsume s.consumer
      (p.1, { s with consumer := p.2 })
  consume s v :=
    if s.done then s
    else if filter v then { s with consumer := inner.consume s.consumer v }
    else { s with done := true }

/-- The factory `TakeWhile(consumer, filter)`: `done` starts false. -/
def TakeWhile {σ : Type} (innerInit : σ) : TakeWhileState σ :=
  { consumer := innerInit, done := false }

/-- `multiConsumer.filterFinished` (both variants): walks the member list in
order, keeps exactly the members whose `CanConsume` call returns true (with
their states updated by that call), and drops the rest.  The Go in-place
index compaction computes exactly this list. -/
def filterFinished {T σ : Type} (M : Machine T σ) : List σ → List σ
  | [] => []
  | s :: rest =>
    let p := M.canConsume s
    if p.1 then p.2 :: filterFinished M rest else filterFinished M rest

/-- `multiConsumer[T]` (the `Compose` result for two or more consumers); the
state is the member list (all members run the same machine `M`; a
heterogeneous collection is obtained by taking `σ` to be a sum type).
`CanConsume` compacts via `filterFinished` and answers whether the compacted
list is non-empty.  `Consume` (`part_001` lines 295-299) forwards the value
to every member currently in the list, with no liveness check. -/
def multiConsumer {T σ : Type} (M : Machine T σ) : Machine T (List σ) where
  canConsume ss :=
    let ss' := filterFinished M ss
    (decide (0 < ss'.length), ss')
  consume ss v := ss.map fun s => M.consume s v

/-- `multiConsumer.Consume` of `consume.go` (lines 286-291): it first runs
`MustCanConsume(m)`, which calls the composite's `CanConsume` — compacting the
member list — and panics (`none`) when the compacted list is empty; then it
forwards the value to the surviving members only. -/
def multiConsumeGo {T σ : Type} (M : Machine T σ) (ss : List σ) (v : T) :
    Option (List σ) :=
  let ss' := filterFinished M ss
  if 0 < ss'.length then some (ss'.map fun s => M.consume s v) else none

/-- `FromSlice(aslice, consumer)`: pushes the values in order, querying
`CanConsume` before every push and stopping at the first false answer (the
loop condition is `index < len(aslice) && consumer.CanConsume()`, so on an
exhausted slice `CanConsume` is not called again). -/
def FromSlice {T σ : Type} (M : Machine T σ) : List T → σ → σ
  | [], s => s
  | x :: rest, s =>
    let p := M.canConsume s
    if p.1 then FromSlice M rest (M.consume p.2 x) else p.2

/-- Fields of the Go struct `pageConsumer[T]` (`consume.go` lines 307-313).
The embedded `Consumer` field is `Slice(AppendTo(aSlicePtr), p*n, (p+1)*n+1)`
until `Finalize` replaces it by `nilConsumer`; we keep the slice chain's state
in `chain` and record the replacement in the `finalized` flag (the flag is set
exactly when the replacement happens).  `chain.consumer` is the slice
`*aSlicePtr`, `morePages` the flag `*morePages`. -/
structure PageState (T : Type) where
  chain : SliceState (List T)
  itemsPerPage : Int
  morePages : Bool
  finalized : Bool
deriving DecidableEq, Repr

/-- The factory `Page(zeroBasedPageNo, itemsPerPage, aSlicePtr, morePages)`
(`consume.go` lines 163-184).  It panics (`none`) when `zeroBasedPageNo < 0`
or `itemsPerPage <= 0`; otherwise it empties `*aSlicePtr`
(`ensureEmptyWithCapacity`) and wires
`Slice(AppendTo(aSlicePtr), pageNo*itemsPerPage, (pageNo+1)*itemsPerPage+1)`. -/
def Page (T : Type) (zeroBasedPageNo itemsPerPage : Int) : Option (PageState T) :=
  if zeroBasedPageNo < 0 then none
  else if itemsPerPage ≤ 0 then none
  else some
    { chain := Slice ([] : List T) (zeroBasedPageNo * itemsPerPage)
        ((zeroBasedPageNo + 1) * itemsPerPage + 1)
      itemsPerPage := itemsPerPage
      morePages := false
      finalized := false }

/-- `pageConsumer[T]`'s `Consumer` methods: both are promoted from the
embedded `Consumer` field, i.e. they are the slice chain's methods before
`Finalize` and `nilConsumer`'s afterwards.  `nilConsumer.Consume` panics in
`consume.go`; as a total machine we leave the state unchanged there (a panic
ends the trace, so this is conservative), and model the panic itself in
`pageConsumeGo`. -/
def pageConsumer (T : Type) : Machine T (PageState T) where
  canConsume s :=
    if s.finalized then (false, s)
    else
      let p := (sliceConsumer (appendConsumer T)).canConsume s.chain
      (p.1, { s with chain := p.2 })
  consume s v :=
    if s.finalized then s
    else { s with chain := (sliceConsumer (appendConsumer T)).consume s.chain v }

/-- `pageConsumer[T].Consume` of `consume.go` with panics made explicit:
after `Finalize` the embedded consumer is `nilConsumer`, whose `Consume`
panics; before, it is the slice chain, whose `Consume` starts with
`MustCanConsume` and panics when the chain cannot consume. -/
def pageConsumeGo {T : Type} (s : PageState T) (v : T) : Option (PageState T) :=
  if s.finalized then none
  else if ((sliceConsumer (appendConsumer T)).canConsume s.chain).1 then
    some { s with chain := (sliceConsumer (appendConsumer T)).consume s.chain v }
  else none

/-- `pageConsumer[T].Finalize` (`consume.go` lines 315-327): a no-op when
already finalized; otherwise sets the latch, swaps the embedded consumer for
`nilConsumer` (the `finalized` flag), and if exactly `itemsPerPage + 1` values
were collected sets `*morePages` and trims the lookahead element, else clears
`*morePages`. -/
def Finalize {T : Type} (s : PageState T) : PageState T :=
  if s.finalized then s
  else
    let s' := { s with finalized := true }
    if (s'.chain.consumer.length : Int) = s'.itemsPerPage + 1 then
      { s' with
        morePages := true
        chain := { s'.chain with
          consumer := s'.chain.consumer.take s'.itemsPerPage.toNat } }
    else { s' with morePages := false }

/-- Fields of the Go struct `PageBuilder[T]` (`part_001` lines 146-152).  The
`values` slice is aliased: `consumer` is
`Slice(AppendTo(&result.values), ...)`, so `values` is `consumer.consumer`
here. -/
structure PageBuilderState (T : Type) where
  consumer : SliceState (List T)
  valuesPerPage : Int
deriving DecidableEq, Repr

/-- `NewPageBuilder(zeroBasedPageNo, valuesPerPage)` (`part_001` lines
157-174): panics (`none`) when `zeroBasedPageNo < 0` or `valuesPerPage <= 0`;
otherwise wires `Slice(AppendTo(&values), pageNo*vpp, (pageNo+1)*vpp+1)` over
an empty `values`. -/
def NewPageBuilder (T : Type) (zeroBasedPageNo valuesPerPage : Int) :
    Option (PageBuilderState T) :=
  if zeroBasedPageNo < 0 then none
  else if valuesPerPage ≤ 0 then none
  else some
    { consumer := Slice ([] : List T) (zeroBasedPageNo * valuesPerPage)
        ((zeroBasedPageNo + 1) * valuesPerPage + 1)
      valuesPerPage := valuesPerPage }

/-- `PageBuilder[T]`'s `CanConsume`/`Consume`: both delegate to the slice
chain (`part_001` lines 178-185). -/
def pageBuilder (T : Type) : Machine T (PageBuilderState T) where
  canConsume s :=
    let p := (sliceConsumer (appendConsumer T)).canConsume s.consumer
    (p.1, { s with consumer := p.2 })
  consume s v :=
    { s with consumer := (sliceConsumer (appendConsumer T)).consume s.consumer v }

/-- `PageBuilder[T].Build` (`part_001` lines 190-199): truncates to
`valuesPerPage` values and reports `morePages` exactly when more than
`valuesPerPage` values were collected. -/
def PageBuilderState.Build {T : Type} (p : PageBuilderState T) : List T × Bool :=
  if (p.consumer.consumer.length : Int) > p.valuesPerPage then
    (p.consumer.consumer.take p.valuesPerPage.toNat, true)
  else (p.consumer.consumer, false)

/-- The observable result of the documented `Page` usage: construct, feed the
values with `FromSlice`, call `Finalize`, read `*aSlicePtr` and `*morePages`.
`none` when construction panics. -/
def runPage (T : Type) (zeroBasedPageNo itemsPerPage : Int) (xs : List T) :
    Option (List T × Bool) :=
  (Page T zeroBasedPageNo itemsPerPage).map fun st =>
    let f := Finalize (FromSlice (pageConsumer T) xs st)
    (f.chain.consumer, f.morePages)

/-- The observable result of the documented `PageBuilder` usage: construct,
feed the values with `FromSlice`, call `Build`. -/
def runPageBuilder (T : Type) (zeroBasedPageNo valuesPerPage : Int) (xs : List T) :
    Option (List T × Bool) :=
  (NewPageBuilder T zeroBasedPageNo valuesPerPage).map fun pb =>
    (FromSlice (pageBuilder T) xs pb).Build

/-- A Go `Consumer[T]` interface value: an implementation (machine) packaged
with its current state. -/
def ConsumerI (T : Type) : Type 1 :=
  Σ σ : Type, Machine T σ × σ

/-- `Pipeline[T,U]` (`pipeline.go` line 6): a function from a consumer of the
output type to a consumer of the input type. -/
def Pipeline (T U : Type) : Type 1 :=
  ConsumerI U → ConsumerI T

/-- `Join(first, second)` (`pipeline.go` lines 34-39): wires
`first(second(inner))`. -/
def Join {T U V : Type} (first : Pipeline T U) (second : Pipeline U V) :
    Pipeline T V :=
  fun inner => first (second inner)

/-- `Identity()` (`pipeline.go` lines 91-95): returns the inner consumer
unchanged. -/
def Identity (T : Type) : Pipeline T T :=
  fun inner => inner

/-- The Go call `f.Consume(value)` on a `filterpConsumer`, with Go's
call-by-value semantics made explicit: the parameter `value` is a fresh copy
of the caller's argument, the filter receives a pointer to that copy (so it
can rewrite it), and the forwarded value is the copy after the filter ran.
The caller's own variable is a distinct cell the callee never touches; the
result pairs that (unchanged) cell with the inner consumer's state after the
call. -/
def filterpConsumeCall {T σ : Type} (filter : T → Bool × T) (callerArg : T)
    (inner : Machine T σ) (s : σ) : T × σ :=
  let value := callerArg
  let p := filter value
  (callerArg, if p.1 then inner.consume s p.2 else s)

/-! ## Lemmas about the slice window -/

/-- The slice-over-append chain's `CanConsume` is pure: it answers
`idx < end` (the append terminal always accepts) and leaves the state
unchanged. -/
theorem sliceApp_canConsume {T : Type} (c : SliceState (List T)) :
    (sliceConsumer (appendConsumer T)).canConsume c = (decide (c.idx < c.stop), c) := by
  unfold sliceConsumer appendConsumer
  by_cases h : c.idx < c.stop <;> simp [h]

/-- Unfolding `FromSlice` on a non-empty input. -/
theorem FromSlice_cons {T σ : Type} (M : Machine T σ) (x : T) (rest : List T) (s : σ) :
    FromSlice M (x :: rest) s
      = if (M.canConsume s).1 then FromSlice M rest (M.consume (M.canConsume s).2 x)
        else (M.canConsume s).2 := rfl

/-- `sliceConsumer.Consume` inside the window: forwards and advances. -/
theorem sliceApp_consume_forward {T : Type} (c : SliceState (List T)) (v : T)
    (hstop : c.idx < c.stop) (hstart : c.start ≤ c.idx) :
    (sliceConsumer (appendConsumer T)).consume c v
      = { c with consumer := c.consumer ++ [v], idx := c.idx + 1 } := by
  have h : ¬ c.stop ≤ c.idx := by omega
  simp [sliceConsumer, appendConsumer, h, hstart]

/-- `sliceConsumer.Consume` before the window: only advances. -/
theorem sliceApp_consume_skip {T : Type} (c : SliceState (List T)) (v : T)
    (hstop : c.idx < c.stop) (hstart : ¬ c.start ≤ c.idx) :
    (sliceConsumer (appendConsumer T)).consume c v = { c with idx := c.idx + 1 } := by
  have h : ¬ c.stop ≤ c.idx := by omega
  simp [sliceConsumer, appendConsumer, h, hstart]

/-- Feeding `xs` into a slice-over-append chain appends exactly the window
`[start - idx, stop - idx)` of `xs` (as clamped by `Int.toNat` and by the
length of `xs`) to the values already collected. -/
theorem fromSlice_sliceApp {T : Type} (xs : List T) (c : SliceState (List T)) :
    (FromSlice (sliceConsumer (appendConsumer T)) xs c).consumer
      = c.consumer ++ ((xs.take (c.stop - c.idx).toNat).drop (c.start - c.idx).toNat) := by
  induction xs generalizing c with
  | nil => simp [FromSlice]
  | cons x rest ih =>
    rw [FromSlice_cons, sliceApp_canConsume]
    by_cases hcc : c.idx < c.stop
    · have hb : ((decide (c.idx < c.stop) : Bool), c).1 = true := by simp [hcc]
      rw [if_pos hb]
      have htake : (c.stop - c.idx).toNat = (c.stop - (c.idx + 1)).toNat + 1 := by omega
      by_cases hstart : c.start ≤ c.idx
      · have hd : (c.start - c.idx).toNat = 0 := by omega
        have hd' : (c.start - (c.idx + 1)).toNat = 0 := by omega
        rw [show ((decide (c.idx < c.stop) : Bool), c).2 = c from rfl,
          sliceApp_consume_forward c x hcc hstart, ih]
        simp [htake, hd, hd', List.append_assoc]
      · have hd : (c.start - c.idx).toNat = (c.start - (c.idx + 1)).toNat + 1 := by omega
        rw [show ((decide (c.idx < c.stop) : Bool), c).2 = c from rfl,
          sliceApp_consume_skip c x hcc hstart, ih]
        simp [htake, hd]
    · have hb : ¬ (((decide (c.idx < c.stop) : Bool), c).1 = true) := by simp [hcc]
      rw [if_neg hb]
      have h0 : (c.stop - c.idx).toNat = 0 := by omega
      simp [h0]

/-- C3: For every windowing stage `Slice(inner, s, e)` with inner an
append-to-sequence consumer, and every sequence of values pushed while the
stage reports it can consume (the `FromSlice` driver), the sub-sequence
forwarded to the inner consumer is exactly the pushed values at zero-based
positions `s..e-1`, with `s` and `e` clamped to `[0, N]` — i.e.
`(xs.take e.toNat).drop s.toNat` — in the original order. -/
theorem slice_window {T : Type} (start stop : Int) (xs : List T) :
    (FromSlice (sliceConsumer (appendConsumer T)) xs
        (Slice ([] : List T) start stop)).consumer
      = (xs.take stop.toNat).drop start.toNat := by
  rw [fromSlice_sliceApp]
  simp [Slice]

/-! ## Lemmas about the pagination consumers -/

/-- Before `Finalize`, `pageConsumer.CanConsume` is the slice chain's: it
answers `idx < stop` and leaves the state unchanged. -/
theorem page_canConsume_unfin {T : Type} (s : PageState T) (h : s.finalized = false) :
    (pageConsumer T).canConsume s = (decide (s.chain.idx < s.chain.stop), s) := by
  have e : (pageConsumer T).canConsume s
      = if s.finalized then (false, s)
        else
          let p := (sliceConsumer (appendConsumer T)).canConsume s.chain
          (p.1, { s with chain := p.2 }) := rfl
  rw [e, if_neg (by simp [h]), sliceApp_canConsume]

/-- Before `Finalize`, `pageConsumer.Consume` is the slice chain's. -/
theorem page_consume_unfin {T : Type} (s : PageState T) (v : T) (h : s.finalized = false) :
    (pageConsumer T).consume s v
      = { s with chain := (sliceConsumer (appendConsumer T)).consume s.chain v } := by
  have e : (pageConsumer T).consume s v
      = if s.finalized then s
        else { s with chain := (sliceConsumer (appendConsumer T)).consume s.chain v } := rfl
  rw [e, if_neg (by simp [h])]

/-- Feeding an unfinalized page consumer feeds its slice chain. -/
theorem fromSlice_page {T : Type} (xs : List T) (s : PageState T)
    (h : s.finalized = false) :
    FromSlice (pageConsumer T) xs s
      = { s with chain := FromSlice (sliceConsumer (appendConsumer T)) xs s.chain } := by
  induction xs generalizing s with
  | nil => simp [FromSlice]
  | cons x rest ih =>
    rw [FromSlice_cons, page_canConsume_unfin s h,
      FromSlice_cons (sliceConsumer (appendConsumer T)), sliceApp_canConsume]
    by_cases hcc : s.chain.idx < s.chain.stop
    · simp only [hcc, decide_True, if_true]
      rw [page_consume_unfin s x h, ih]
      exact h
    · simp only [hcc, decide_False, Bool.false_eq_true, if_false]

/-- The slice window of the pagination engine: window `[p*n, (p+1)*n+1)` over
`xs` collects the `n+1`-lookahead page `(xs.drop (p*n)).take (n+1)`. -/
theorem page_window_core {T : Type} (p n : Int) (hp : 0 ≤ p) (hn : 0 < n) (xs : List T) :
    (FromSlice (sliceConsumer (appendConsumer T)) xs
        (Slice ([] : List T) (p * n) ((p + 1) * n + 1))).consumer
      = (xs.drop (p * n).toNat).take (n.toNat + 1) := by
  have hpn : 0 ≤ p * n := mul_nonneg hp hn.le
  have hring : (p + 1) * n + 1 = p * n + n + 1 := by ring
  rw [fromSlice_sliceApp]
  simp only [Slice, List.nil_append, Int.sub_zero]
  rw [List.drop_take, hring]
  congr 1
  omega

/-- `Finalize` on a freshly-fed, unfinalized page consumer. -/
theorem finalize_mk {T : Type} (cf : SliceState (List T)) (ipp : Int) (mp : Bool) :
    Finalize { chain := cf, itemsPerPage := ipp, morePages := mp, finalized := false }
      = if (cf.consumer.length : Int) = ipp + 1 then
          { chain := { cf with consumer := cf.consumer.take ipp.toNat },
            itemsPerPage := ipp, morePages := true, finalized := true }
        else
          { chain := cf, itemsPerPage := ipp, morePages := false, finalized := true } := by
  unfold Finalize
  split <;> split <;> simp_all

/-- `pageBuilder.CanConsume` is pure like the slice chain's. -/
theorem pageBuilder_canConsume {T : Type} (s : PageBuilderState T) :
    (pageBuilder T).canConsume s
      = (decide (s.consumer.idx < s.consumer.stop), s) := by
  have e : (pageBuilder T).canConsume s
      = (let p := (sliceConsumer (appendConsumer T)).canConsume s.consumer
         (p.1, { s with consumer := p.2 })) := rfl
  rw [e, sliceApp_canConsume]

/-- Feeding a page builder feeds its slice chain. -/
theorem fromSlice_pageBuilder {T : Type} (xs : List T) (s : PageBuilderState T) :
    FromSlice (pageBuilder T) xs s
      = { s with consumer := FromSlice (sliceConsumer (appendConsumer T)) xs s.consumer } := by
  induction xs generalizing s with
  | nil => simp [FromSlice]
  | cons x rest ih =>
    rw [FromSlice_cons, pageBuilder_canConsume,
      FromSlice_cons (sliceConsumer (appendConsumer T)), sliceApp_canConsume]
    by_cases hcc : s.consumer.idx < s.consumer.stop
    · simp only [hcc, decide_True, if_true]
      rw [show (pageBuilder T).consume s x
            = { s with consumer := (sliceConsumer (appendConsumer T)).consume s.consumer x }
          from rfl, ih]
    · simp only [hcc, decide_False, Bool.false_eq_true, if_false]

/-- `Build` on a page builder state written as a literal. -/
theorem build_mk {T : Type} (cf : SliceState (List T)) (vpp : Int) :
    PageBuilderState.Build { consumer := cf, valuesPerPage := vpp }
      = if (cf.consumer.length : Int) > vpp then (cf.consumer.take vpp.toNat, true)
        else (cf.consumer, false) := rfl

/-- C1: pagination round-trip.  For page size `n > 0` and page index `p ≥ 0`,
feeding a sequence `xs` of `M` values to the pagination consumer while it
reports it can consume (the `FromSlice` driver) and then finalizing
(`Page`/`Finalize`) or building (`NewPageBuilder`/`Build`) yields exactly the
values at positions `[p*n, min((p+1)*n, M))` of `xs` in original order, with
the `morePages` flag true iff `M > (p+1)*n`. -/
theorem page_roundtrip {T : Type} (p n : Int) (hp : 0 ≤ p) (hn : 0 < n) (xs : List T) :
    runPage T p n xs
        = some ((xs.drop (p * n).toNat).take n.toNat,
            decide ((xs.length : Int) > (p + 1) * n))
      ∧ runPageBuilder T p n xs
        = some ((xs.drop (p * n).toNat).take n.toNat,
            decide ((xs.length : Int) > (p + 1) * n)) := by
  have hpn : 0 ≤ p * n := mul_nonneg hp hn.le
  have hP : (((p * n).toNat : Int)) = p * n := Int.toNat_of_nonneg hpn
  have hN : ((n.toNat : Int)) = n := Int.toNat_of_nonneg hn.le
  have hring : (p + 1) * n = p * n + n := by ring
  have hvals := page_window_core p n hp hn xs
  set P := (p * n).toNat with hPdef
  set N := n.toNat with hNdef
  set vals := (xs.drop P).take (N + 1) with hvalsdef
  have hlen : vals.length = min (N + 1) (xs.length - P) := by
    rw [hvalsdef, List.length_take, List.length_drop]
  have hrunPage : runPage T p n xs
      = some (if (vals.length : Int) = n + 1 then (vals.take n.toNat, true)
              else (vals, false)) := by
    unfold runPage
    rw [show Page T p n
          = some { chain := Slice ([] : List T) (p * n) ((p + 1) * n + 1),
                   itemsPerPage := n, morePages := false, finalized := false } by
        unfold Page; rw [if_neg (by omega), if_neg (by omega)],
      Option.map_some']
    rw [fromSlice_page xs _ rfl]
    rw [show ({ chain := Slice ([] : List T) (p * n) ((p + 1) * n + 1),
                itemsPerPage := n, morePages := false,
                finalized := false } : PageState T).chain
          = Slice ([] : List T) (p * n) ((p + 1) * n + 1) from rfl]
    rw [finalize_mk, hvals]
    split
    · rfl
    · simp only [hvals]
  have hrunBuilder : runPageBuilder T p n xs
      = some (if (vals.length : Int) > n then (vals.take n.toNat, true)
              else (vals, false)) := by
    unfold runPageBuilder
    rw [show NewPageBuilder T p n
          = some { consumer := Slice ([] : List T) (p * n) ((p + 1) * n + 1),
                   valuesPerPage := n } by
        unfold NewPageBuilder; rw [if_neg (by omega), if_neg (by omega)],
      Option.map_some']
    rw [fromSlice_pageBuilder xs _]
    rw [show ({ consumer := Slice ([] : List T) (p * n) ((p + 1) * n + 1),
                valuesPerPage := n } : PageBuilderState T).consumer
          = Slice ([] : List T) (p * n) ((p + 1) * n + 1) from rfl]
    rw [build_mk, hvals]
  by_cases hM : P + N + 1 ≤ xs.length
  · have hcond : (vals.length : Int) = n + 1 := by rw [hlen]; omega
    have hcondB : (vals.length : Int) > n := by rw [hlen]; omega
    have hpage : vals.take n.toNat = (xs.drop P).take N := by
      rw [hvalsdef, ← hNdef, List.take_take, min_eq_left (Nat.le_succ N)]
    have hmore : decide ((xs.length : Int) > (p + 1) * n) = true := by
      apply decide_eq_true; rw [hring]; omega
    refine ⟨?_, ?_⟩
    · rw [hrunPage, if_pos hcond, hpage, hmore]
    · rw [hrunBuilder, if_pos hcondB, hpage, hmore]
  · have hdl : (xs.drop P).length ≤ N := by rw [List.length_drop]; omega
    have hcond : ¬ ((vals.length : Int) = n + 1) := by rw [hlen]; omega
    have hcondB : ¬ ((vals.length : Int) > n) := by rw [hlen]; omega
    have hpage : vals = (xs.drop P).take N := by
      rw [hvalsdef, List.take_of_length_le (le_trans hdl (Nat.le_succ N)),
        List.take_of_length_le hdl]
    have hmore : decide ((xs.length : Int) > (p + 1) * n) = false := by
      apply decide_eq_false; rw [hring]; omega
    refine ⟨?_, ?_⟩
    · rw [hrunPage, if_neg hcond, hpage, hmore]
    · rw [hrunBuilder, if_neg hcondB, hpage, hmore]

/-- Witness for `page_roundtrip` at page 2, size 5, 11 values (the spec's own
example: page 2 of 11 values is `[10]` with no more pages). -/
theorem page_roundtrip_witness :
    runPage Nat 2 5 (List.range 11) = some ([10], false)
      ∧ runPageBuilder Nat 2 5 (List.range 11) = some ([10], false) := by
  have h := page_roundtrip (T := Nat) 2 5 (by decide) (by decide) (List.range 11)
  simpa using h

/-! ## Take-while -/

/-- `takeWhileConsumer.CanConsume` over the append terminal is pure and
answers `!done`. -/
theorem takeWhileApp_canConsume {T : Type} (pred : T → Bool) (s : TakeWhileState (List T)) :
    (takeWhileConsumer (appendConsumer T) pred).canConsume s = (!s.done, s) := by
  obtain ⟨cs, d⟩ := s
  cases d <;> rfl

/-- Once latched, the driver's next liveness check stops the feed at once. -/
theorem fromSlice_takeWhileApp_done {T : Type} (pred : T → Bool) (xs : List T)
    (vals : List T) :
    FromSlice (takeWhileConsumer (appendConsumer T) pred) xs ⟨vals, true⟩
      = ⟨vals, true⟩ := by
  cases xs with
  | nil => rfl
  | cons x rest =>
    rw [FromSlice_cons, takeWhileApp_canConsume]
    simp

/-- Feeding `xs` into take-while-over-append forwards exactly the maximal
true-prefix of `xs`. -/
theorem fromSlice_takeWhileApp {T : Type} (pred : T → Bool) (xs : List T)
    (vals : List T) :
    (FromSlice (takeWhileConsumer (appendConsumer T) pred) xs ⟨vals, false⟩).consumer
      = vals ++ xs.takeWhile pred := by
  induction xs generalizing vals with
  | nil => simp [FromSlice]
  | cons x rest ih =>
    rw [FromSlice_cons, takeWhileApp_canConsume, List.takeWhile_cons]
    by_cases hx : pred x
    · simp only [Bool.not_false, if_true, hx, if_pos]
      rw [show (takeWhileConsumer (appendConsumer T) pred).consume ⟨vals, false⟩ x
            = ⟨vals ++ [x], false⟩ by simp [takeWhileConsumer, appendConsumer, hx]]
      rw [ih]
      simp
    · simp only [Bool.not_false, if_true, hx, if_neg, Bool.false_eq_true, not_false_iff]
      rw [show (takeWhileConsumer (appendConsumer T) pred).consume ⟨vals, false⟩ x
            = ⟨vals, true⟩ by simp [takeWhileConsumer, hx]]
      rw [fromSlice_takeWhileApp_done]
      simp [hx]

/-- C6: For a `TakeWhile` stage over an always-accepting inner consumer, the
values forwarded to the inner consumer are exactly the maximal prefix of the
pushed values preceding the first predicate failure, in order; and after the
first failure the stage is latched permanently: with `done` set, `Consume`
drops every later value — even one satisfying the predicate — leaving the
inner consumer untouched. -/
theorem takeWhile_prefix_and_latch {T : Type} (pred : T → Bool) (xs : List T)
    (vals : List T) (v : T) :
    (FromSlice (takeWhileConsumer (appendConsumer T) pred) xs
        (TakeWhile ([] : List T))).consumer = xs.takeWhile pred
      ∧ (takeWhileConsumer (appendConsumer T) pred).consume ⟨vals, true⟩ v
          = ⟨vals, true⟩ := by
  constructor
  · rw [show (TakeWhile ([] : List T)) = (⟨[], false⟩ : TakeWhileState (List T)) from rfl,
      fromSlice_takeWhileApp]
    simp
  · rfl

/-! ## Finalize (C7) and constructor guards (C9) -/

/-- C7: `Finalize` is idempotent — the second and all later calls leave the
whole state (the output slice `chain.consumer`, the `morePages` flag, the
chain, the latch) unchanged — and after the first call `CanConsume` returns
false and `Consume` follows `consume.go`'s exhausted contract: it panics
(`pageConsumeGo` returns `none`, since the embedded consumer is then
`nilConsumer`). -/
theorem finalize_idempotent {T : Type} (s : PageState T) (v : T) :
    Finalize (Finalize s) = Finalize s
      ∧ ((pageConsumer T).canConsume (Finalize s)).1 = false
      ∧ pageConsumeGo (Finalize s) v = none := by
  have hstop : ∀ t : PageState T, t.finalized = true → Finalize t = t := by
    intro t ht
    unfold Finalize
    rw [if_pos ht]
  have hfin : (Finalize s).finalized = true := by
    obtain ⟨ch, ipp, mp, fin⟩ := s
    cases fin
    · rw [show (⟨ch, ipp, mp, false⟩ : PageState T)
            = { chain := ch, itemsPerPage := ipp, morePages := mp, finalized := false }
          from rfl, finalize_mk]
      split <;> rfl
    · rfl
  refine ⟨?_, ?_, ?_⟩
  · exact hstop _ hfin
  · have e : (pageConsumer T).canConsume (Finalize s)
        = if (Finalize s).finalized then (false, Finalize s)
          else
            let p := (sliceConsumer (appendConsumer T)).canConsume (Finalize s).chain
            (p.1, { Finalize s with chain := p.2 }) := rfl
    rw [e, if_pos (by rw [hfin])]
  · unfold pageConsumeGo
    rw [if_pos (by rw [hfin])]

/-- C9: the pagination constructors fail loudly (panic, modeled as `none`)
exactly when the zero-based page index is negative or the per-page size is
not positive, and construct normally otherwise. -/
theorem page_ctor_guards (T : Type) (p n : Int) :
    (Page T p n = none ↔ (p < 0 ∨ n ≤ 0))
      ∧ (NewPageBuilder T p n = none ↔ (p < 0 ∨ n ≤ 0)) := by
  constructor
  · unfold Page
    split
    · simp_all
    · split <;> simp_all
  · unfold NewPageBuilder
    split
    · simp_all
    · split <;> simp_all

/-! ## Pipelines (C8) and the filterp frame effect (C10) -/

/-- C8: `Join` is associative and `Identity` is its left and right neutral
element.  The joined pipelines are equal as functions, so for every terminal
consumer they build the very same consumer chain — in particular the chains
have identical observable behaviour (same values delivered to the terminal,
same liveness answers). -/
theorem join_assoc_identity {T U V W : Type} (a : Pipeline T U) (b : Pipeline U V)
    (c : Pipeline V W) (q : Pipeline T U) :
    Join (Join a b) c = Join a (Join b c)
      ∧ Join (Identity T) q = q
      ∧ Join q (Identity U) = q :=
  ⟨rfl, rfl, rfl⟩

/-- C10: in a `Filterp` stage the predicate runs on a pointer to a private
copy of the pushed value (`Consume(value T)` receives `value` by value and
passes `&value`).  The call leaves the caller's own value unchanged, and the
value forwarded to the inner consumer is the copy *after* the predicate ran —
so a mutation performed by the predicate is visible downstream (shown
concretely on the append terminal: the appended element is `(filter v).2`,
not `v`) but never reaches the caller. -/
theorem filterp_frame {T σ : Type} (filter : T → Bool × T) (v : T)
    (inner : Machine T σ) (s : σ) (out : List T) :
    (filterpConsumeCall filter v inner s).1 = v
      ∧ (filterpConsumeCall filter v inner s).2
          = (filterpConsumer inner filter).consume s v
      ∧ (filterpConsumer (appendConsumer T) filter).consume out v
          = (if (filter v).1 then out ++ [(filter v).2] else out) := by
  refine ⟨rfl, rfl, ?_⟩
  have e : (filterpConsumer (appendConsumer T) filter).consume out v
      = (if (filter v).1 then out ++ [(filter v).2] else out) := by
    show (let p := filter v; if p.1 then out ++ [p.2] else out) = _
    rfl
  exact e

/-! ## The once-false-always-false liveness invariant (C4) -/

/-- A consumer state whose `CanConsume` answers false. -/
def Dead {T σ : Type} (M : Machine T σ) (s : σ) : Prop :=
  (M.canConsume s).1 = false

/-- The contract's hard invariant, over call traces: once `CanConsume` has
answered false at a state, it answers false after every further sequence of
`CanConsume` and `Consume` calls. -/
def OnceFalse {T σ : Type} (M : Machine T σ) : Prop :=
  ∀ (s : σ) (calls : List (Call T)), Dead M s → Dead M (M.runCalls calls s)

/-- One-step form of the invariant: from a dead state, both a query and any
push lead to a dead state. -/
def DeadStable {T σ : Type} (M : Machine T σ) : Prop :=
  ∀ s : σ, Dead M s → Dead M (M.canConsume s).2 ∧ ∀ v, Dead M (M.consume s v)

theorem onceFalse_of_deadStable {T σ : Type} (M : Machine T σ)
    (h : DeadStable M) : OnceFalse M := by
  intro s calls hd
  induction calls generalizing s with
  | nil => exact hd
  | cons c cs ih =>
    cases c with
    | query => exact ih _ (h s hd).1
    | push v => exact ih _ ((h s hd).2 v)

theorem deadStable_of_onceFalse {T σ : Type} (M : Machine T σ)
    (h : OnceFalse M) : DeadStable M := by
  intro s hd
  exact ⟨h s [Call.query] hd, fun v => h s [Call.push v] hd⟩

theorem deadStable_appendConsumer (T : Type) : DeadStable (appendConsumer T) := by
  intro s hd
  simp [Dead, appendConsumer] at hd

theorem onceFalse_appendConsumer (T : Type) : OnceFalse (appendConsumer T) :=
  onceFalse_of_deadStable _ (deadStable_appendConsumer T)

theorem deadStable_nilConsumer (T : Type) : DeadStable (nilConsumer T) := by
  intro s hd
  exact ⟨rfl, fun _ => rfl⟩

/-- Boolean characterization of `sliceConsumer.CanConsume`'s answer. -/
theorem slice_canConsume_fst {T σ : Type} (inner : Machine T σ) (s : SliceState σ) :
    ((sliceConsumer inner).canConsume s).1
      = (decide (s.idx < s.stop) && (inner.canConsume s.consumer).1) := by
  by_cases hc : s.idx < s.stop <;> simp [sliceConsumer, hc]

/-- State after `sliceConsumer.CanConsume`. -/
theorem slice_canConsume_snd {T σ : Type} (inner : Machine T σ) (s : SliceState σ) :
    ((sliceConsumer inner).canConsume s).2
      = if s.idx < s.stop then { s with consumer := (inner.canConsume s.consumer).2 }
        else s := by
  by_cases hc : s.idx < s.stop <;> simp [sliceConsumer, hc]

theorem deadStable_sliceConsumer {T σ : Type} (inner : Machine T σ)
    (h : DeadStable inner) : DeadStable (sliceConsumer inner) := by
  intro s hd
  unfold Dead at hd ⊢
  rw [slice_canConsume_fst] at hd
  by_cases hc : s.idx < s.stop
  · simp only [hc, decide_True, Bool.true_and] at hd
    constructor
    · rw [slice_canConsume_snd, if_pos hc, slice_canConsume_fst]
      have h1 : (inner.canConsume (inner.canConsume s.consumer).2).1 = false :=
        (h s.consumer hd).1
      simp [hc, h1]
    · intro v
      have hns : ¬ s.stop ≤ s.idx := by omega
      by_cases hstart : s.start ≤ s.idx
      · rw [show (sliceConsumer inner).consume s v
              = { s with consumer := inner.consume s.consumer v, idx := s.idx + 1 } by
            simp [sliceConsumer, hns, hstart], slice_canConsume_fst]
        have h1 : (inner.canConsume (inner.consume s.consumer v)).1 = false :=
          (h s.consumer hd).2 v
        by_cases h2 : s.idx + 1 < s.stop
        · simp [h2, h1]
        · simp [h2]
      · rw [show (sliceConsumer inner).consume s v = { s with idx := s.idx + 1 } by
            simp [sliceConsumer, hns, hstart], slice_canConsume_fst]
        by_cases h2 : s.idx + 1 < s.stop
        · simp [h2, hd]
        · simp [h2]
  · have hns : s.stop ≤ s.idx := by omega
    constructor
    · rw [slice_canConsume_snd, if_neg hc, slice_canConsume_fst]
      simp [hc]
    · intro v
      rw [show (sliceConsumer inner).consume s v = s by simp [sliceConsumer, hns],
        slice_canConsume_fst]
      simp [hc]

theorem deadStable_filterConsumer {T σ : Type} (inner : Machine T σ) (f : T → Bool)
    (h : DeadStable inner) : DeadStable (filterConsumer inner f) := by
  intro s hd
  refine ⟨(h s hd).1, fun v => ?_⟩
  show Dead inner (if f v then inner.consume s v else s)
  by_cases hf : f v
  · simp only [hf, if_true]
    exact (h s hd).2 v
  · simp only [hf, if_false]
    exact hd

theorem deadStable_filterpConsumer {T σ : Type} (inner : Machine T σ)
    (fp : T → Bool × T) (h : DeadStable inner) :
    DeadStable (filterpConsumer inner fp) := by
  intro s hd
  refine ⟨(h s hd).1, fun v => ?_⟩
  show Dead inner (if (fp v).1 then inner.consume s (fp v).2 else s)
  by_cases hf : (fp v).1
  · simp only [hf, if_true]
    exact (h s hd).2 (fp v).2
  · simp only [hf, if_false]
    exact hd

theorem deadStable_mapConsumer {T U σ : Type} (inner : Machine U σ) (g : T → U)
    (h : DeadStable inner) : DeadStable (mapConsumer inner g) := by
  intro s hd
  exact ⟨(h s hd).1, fun v => (h s hd).2 (g v)⟩

theorem deadStable_maybeMapConsumer {T U σ : Type} (inner : Machine U σ)
    (mm : T → U × Bool) (h : DeadStable inner) :
    DeadStable (maybeMapConsumer inner mm) := by
  intro s hd
  refine ⟨(h s hd).1, fun v => ?_⟩
  show Dead inner (if (mm v).2 then inner.consume s (mm v).1 else s)
  by_cases hf : (mm v).2
  · simp only [hf, if_true]
    exact (h s hd).2 (mm v).1
  · simp only [hf, if_false]
    exact hd

/-- Boolean characterization of `takeWhileConsumer.CanConsume`'s answer. -/
theorem takeWhile_canConsume_fst {T σ : Type} (inner : Machine T σ) (f : T → Bool)
    (s : TakeWhileState σ) :
    ((takeWhileConsumer inner f).canConsume s).1
      = (!s.done && (inner.canConsume s.consumer).1) := by
  obtain ⟨cs, d⟩ := s
  cases d <;> simp [takeWhileConsumer]

/-- State after `takeWhileConsumer.CanConsume`. -/
theorem takeWhile_canConsume_snd {T σ : Type} (inner : Machine T σ) (f : T → Bool)
    (s : TakeWhileState σ) :
    ((takeWhileConsumer inner f).canConsume s).2
      = if s.done then s else { s with consumer := (inner.canConsume s.consumer).2 } := by
  obtain ⟨cs, d⟩ := s
  cases d <;> simp [takeWhileConsumer]

theorem deadStable_takeWhileConsumer {T σ : Type} (inner : Machine T σ) (f : T → Bool)
    (h : DeadStable inner) : DeadStable (takeWhileConsumer inner f) := by
  intro s hd
  unfold Dead at hd ⊢
  rw [takeWhile_canConsume_fst] at hd
  by_cases hdone : s.done
  · constructor
    · rw [takeWhile_canConsume_snd, if_pos hdone, takeWhile_canConsume_fst]
      simp [hdone]
    · intro v
      rw [show (takeWhileConsumer inner f).consume s v = s by
          simp [takeWhileConsumer, hdone], takeWhile_canConsume_fst]
      simp [hdone]
  · simp only [hdone, Bool.not_false, Bool.true_and] at hd
    constructor
    · rw [takeWhile_canConsume_snd, if_neg hdone, takeWhile_canConsume_fst]
      have h1 : (inner.canConsume (inner.canConsume s.consumer).2).1 = false :=
        (h s.consumer hd).1
      simp [hdone, h1]
    · intro v
      by_cases hf : f v
      · rw [show (takeWhileConsumer inner f).consume s v
              = { s with consumer := inner.consume s.consumer v } by
            simp [takeWhileConsumer, hdone, hf], takeWhile_canConsume_fst]
        have h1 : (inner.canConsume (inner.consume s.consumer v)).1 = false :=
          (h s.consumer hd).2 v
        simp [hdone, h1]
      · rw [show (takeWhileConsumer inner f).consume s v = { s with done := true } by
            simp [takeWhileConsumer, hdone, hf], takeWhile_canConsume_fst]
        simp

/-- Unfolding `filterFinished` on a non-empty member list. -/
theorem filterFinished_cons {T σ : Type} (M : Machine T σ) (s : σ) (rest : List σ) :
    filterFinished M (s :: rest)
      = if (M.canConsume s).1 then (M.canConsume s).2 :: filterFinished M rest
        else filterFinished M rest := rfl

/-- The compacted list is empty exactly when every member answers false. -/
theorem filterFinished_eq_nil_iff {T σ : Type} (M : Machine T σ) (ss : List σ) :
    filterFinished M ss = [] ↔ ∀ s ∈ ss, (M.canConsume s).1 = false := by
  induction ss with
  | nil => simp [filterFinished]
  | cons s rest ih =>
    rw [filterFinished_cons]
    by_cases hs : (M.canConsume s).1
    · simp [hs]
    · simp only [hs, if_false, Bool.false_eq_true]
      rw [ih]
      constructor
      · intro hall t ht
        rcases List.mem_cons.mp ht with h1 | h2
        · subst h1
          exact Bool.not_eq_true _ ▸ (by revert hs; cases (M.canConsume t).1 <;> simp)
        · exact hall t h2
      · intro hall t ht
        exact hall t (List.mem_cons_of_mem s ht)

theorem deadStable_multiConsumer {T σ : Type} (M : Machine T σ)
    (h : DeadStable M) : DeadStable (multiConsumer M) := by
  intro ss hd
  have hempty : filterFinished M ss = [] := by
    unfold Dead multiConsumer at hd
    simp only [decide_eq_false_iff_not, Nat.not_lt, Nat.le_zero] at hd
    exact List.length_eq_zero.mp hd
  have hall : ∀ s ∈ ss, (M.canConsume s).1 = false :=
    (filterFinished_eq_nil_iff M ss).mp hempty
  constructor
  · unfold Dead multiConsumer
    simp [hempty, filterFinished]
  · intro v
    have hall' : ∀ t ∈ ss.map (fun s => M.consume s v), (M.canConsume t).1 = false := by
      intro t ht
      obtain ⟨s0, hs0, rfl⟩ := List.mem_map.mp ht
      exact (h s0 (hall s0 hs0)).2 v
    have hempty' : filterFinished M (ss.map fun s => M.consume s v) = [] :=
      (filterFinished_eq_nil_iff M _).mpr hall'
    unfold Dead multiConsumer
    simp [hempty']

/-- Boolean characterization of `pageConsumer.CanConsume`'s answer. -/
theorem page_canConsume_fst {T : Type} (s : PageState T) :
    ((pageConsumer T).canConsume s).1
      = (!s.finalized && decide (s.chain.idx < s.chain.stop)) := by
  obtain ⟨ch, ipp, mp, fin⟩ := s
  cases fin
  · rw [page_canConsume_unfin _ rfl]
    simp
  · rfl

theorem deadStable_pageConsumer (T : Type) : DeadStable (pageConsumer T) := by
  intro s hd
  unfold Dead at hd ⊢
  rw [page_canConsume_fst] at hd
  by_cases hfin : s.finalized
  · have e : (pageConsumer T).canConsume s = (false, s) := by
      show (if s.finalized then ((false : Bool), s) else _) = _
      rw [if_pos hfin]
    have e2 : ∀ v, (pageConsumer T).consume s v = s := by
      intro v
      show (if s.finalized then s else _) = _
      rw [if_pos hfin]
    constructor
    · rw [e, page_canConsume_fst]
      simp [hfin]
    · intro v
      rw [e2 v, page_canConsume_fst]
      simp [hfin]
  · have hfin' : s.finalized = false := by revert hfin; cases s.finalized <;> simp
    simp only [hfin', Bool.not_false, Bool.true_and, decide_eq_false_iff_not] at hd
    have hns : s.chain.stop ≤ s.chain.idx := by omega
    constructor
    · rw [page_canConsume_unfin _ hfin', page_canConsume_fst]
      simp [hfin', hd]
    · intro v
      rw [page_consume_unfin _ _ hfin',
        show (sliceConsumer (appendConsumer T)).consume s.chain v = s.chain by
          simp [sliceConsumer, hns],
        page_canConsume_fst]
      simp [hfin', hd]

/-- C4: every factory of the library preserves the once-false-always-false
`CanConsume` invariant.  Provided the wrapped inner consumers satisfy the
invariant (`hM` for the `Consumer[T]` wrapped by `Slice`/`Filter`/`Filterp`/
`TakeWhile`/`Compose`, `hMU` for the `Consumer[U]` wrapped by
`Map`/`MaybeMap`), each factory's result satisfies it over every sequence of
`CanConsume` and `Consume` calls.  `Compose` with zero consumers is
`nilConsumer` and with one is the consumer itself (where the invariant is
exactly `hM`); with two or more it is `multiConsumer`.  `Page`'s consumer is
`pageConsumer` (whose wrapped chain is concrete), and `AppendTo`'s is
`appendConsumer`. -/
theorem once_false_factories {T U σ σu : Type} (M : Machine T σ) (MU : Machine U σu)
    (f : T → Bool) (fp : T → Bool × T) (g : T → U) (mm : T → U × Bool)
    (hM : OnceFalse M) (hMU : OnceFalse MU) :
    OnceFalse (sliceConsumer M) ∧ OnceFalse (filterConsumer M f)
      ∧ OnceFalse (filterpConsumer M fp) ∧ OnceFalse (takeWhileConsumer M f)
      ∧ OnceFalse (mapConsumer MU g) ∧ OnceFalse (maybeMapConsumer MU mm)
      ∧ OnceFalse (multiConsumer M) ∧ OnceFalse (pageConsumer T)
      ∧ OnceFalse (nilConsumer T) ∧ OnceFalse (appendConsumer T) := by
  have hMs := deadStable_of_onceFalse M hM
  have hMUs := deadStable_of_onceFalse MU hMU
  exact ⟨onceFalse_of_deadStable _ (deadStable_sliceConsumer M hMs),
    onceFalse_of_deadStable _ (deadStable_filterConsumer M f hMs),
    onceFalse_of_deadStable _ (deadStable_filterpConsumer M fp hMs),
    onceFalse_of_deadStable _ (deadStable_takeWhileConsumer M f hMs),
    onceFalse_of_deadStable _ (deadStable_mapConsumer MU g hMUs),
    onceFalse_of_deadStable _ (deadStable_maybeMapConsumer MU mm hMUs),
    onceFalse_of_deadStable _ (deadStable_multiConsumer M hMs),
    onceFalse_of_deadStable _ (deadStable_pageConsumer T),
    onceFalse_of_deadStable _ (deadStable_nilConsumer T),
    onceFalse_appendConsumer T⟩

/-- Witness for `once_false_factories` with concrete inner consumers
(append-to-slice terminals over `Nat`) and concrete stage functions. -/
theorem once_false_factories_witness :
    OnceFalse (appendConsumer Nat)
      ∧ (OnceFalse (sliceConsumer (appendConsumer Nat))
          ∧ OnceFalse (filterConsumer (appendConsumer Nat) (fun x => decide (x < 3)))
          ∧ OnceFalse (filterpConsumer (appendConsumer Nat) (fun x => (true, x + 1)))
          ∧ OnceFalse (takeWhileConsumer (appendConsumer Nat) (fun x => decide (x < 3)))
          ∧ OnceFalse (mapConsumer (appendConsumer Nat) (fun x : Nat => x * 2))
          ∧ OnceFalse (maybeMapConsumer (appendConsumer Nat) (fun x : Nat => (x, true)))
          ∧ OnceFalse (multiConsumer (appendConsumer Nat))
          ∧ OnceFalse (pageConsumer Nat)
          ∧ OnceFalse (nilConsumer Nat) ∧ OnceFalse (appendConsumer Nat)) :=
  ⟨onceFalse_appendConsumer Nat,
    once_false_factories (appendConsumer Nat) (appendConsumer Nat)
      (fun x => decide (x < 3)) (fun x => (true, x + 1)) (fun x => x * 2)
      (fun x => (x, true)) (onceFalse_appendConsumer Nat) (onceFalse_appendConsumer Nat)⟩

/-! ## Composite compaction (C5) and forwarding (C2) -/

/-- C5: every call to the composite's `CanConsume` compacts the member list in
place so that immediately afterwards it contains exactly the member consumers
whose `CanConsume` is true, in their original relative order, and the call
returns true iff the compacted list is non-empty.  Stated for members whose
`CanConsume` is pure (leaves their own state unchanged), which makes "whose
CanConsume is true" unambiguous; every library consumer except a nested
composite has a pure `CanConsume`. -/
theorem multi_canConsume_compacts {T σ : Type} (M : Machine T σ) (ss : List σ)
    (hpure : ∀ s, (M.canConsume s).2 = s) :
    ((multiConsumer M).canConsume ss).2 = ss.filter (fun s => (M.canConsume s).1)
      ∧ (((multiConsumer M).canConsume ss).1 = true
          ↔ ((multiConsumer M).canConsume ss).2 ≠ []) := by
  have hff : filterFinished M ss = ss.filter (fun s => (M.canConsume s).1) := by
    induction ss with
    | nil => rfl
    | cons s rest ih =>
      rw [filterFinished_cons, List.filter_cons]
      by_cases hs : (M.canConsume s).1
      · rw [if_pos hs, if_pos (by simp [hs]), hpure s, ih]
      · rw [if_neg hs, if_neg (by simp [hs]), ih]
  constructor
  · exact hff
  · show decide (0 < (filterFinished M ss).length) = true ↔ filterFinished M ss ≠ []
    simp [List.length_pos]

/-- Witness for `multi_canConsume_compacts`: two slice-over-append members,
the first already exhausted (window `[0,1)` filled), the second still live;
the compaction keeps exactly the live one and answers true. -/
theorem multi_canConsume_compacts_witness :
    (∀ s : SliceState (List Nat),
        ((sliceConsumer (appendConsumer Nat)).canConsume s).2 = s)
      ∧ (((multiConsumer (sliceConsumer (appendConsumer Nat))).canConsume
            [⟨[9], 0, 1, 1⟩, ⟨[7], 0, 3, 1⟩]).2
          = [⟨[9], 0, 1, 1⟩, ⟨[7], 0, 3, 1⟩].filter
              (fun s => ((sliceConsumer (appendConsumer Nat)).canConsume s).1)
        ∧ (((multiConsumer (sliceConsumer (appendConsumer Nat))).canConsume
              [⟨[9], 0, 1, 1⟩, ⟨[7], 0, 3, 1⟩]).1 = true
            ↔ ((multiConsumer (sliceConsumer (appendConsumer Nat))).canConsume
                [⟨[9], 0, 1, 1⟩, ⟨[7], 0, 3, 1⟩]).2 ≠ [])) :=
  ⟨fun s => by rw [sliceApp_canConsume],
    multi_canConsume_compacts (sliceConsumer (appendConsumer Nat))
      [⟨[9], 0, 1, 1⟩, ⟨[7], 0, 3, 1⟩] (fun s => by rw [sliceApp_canConsume])⟩

/-- C2 (counterexample): in `consume.go`, a member that became dead since the
composite's last external `CanConsume` query is removed *during* `Consume`
and does not receive the pushed value.  Composite of two slice-over-append
members with windows `[0,1)` and `[0,100)`: the first push (value 10) is
delivered to both members, after which the first member is exhausted; the
second push (value 20), made with no intervening external `CanConsume`,
triggers `Consume`'s own `MustCanConsume` check, which compacts the list —
the result contains only the second member (list length 1, the claim requires
length 2 with the first member having received 20). -/
theorem multi_consume_eager_prune_counterexample :
    multiConsumeGo (sliceConsumer (appendConsumer Nat))
        [Slice ([] : List Nat) 0 1, Slice ([] : List Nat) 0 100] 10
      = some [⟨[10], 0, 1, 1⟩, ⟨[10], 0, 100, 1⟩]
    ∧ multiConsumeGo (sliceConsumer (appendConsumer Nat))
        [⟨[10], 0, 1, 1⟩, ⟨[10], 0, 100, 1⟩] 20
      = some [⟨[10, 20], 0, 100, 2⟩] := by
  constructor <;> rfl

/-- C2 (amended): the claim as stated holds for the silent-drop variant
(`part_001`), whose `multiConsumer.Consume` performs no liveness check:
the member list keeps its length and the member at every position — dead or
alive — receives the value.  (In `consume.go`, by contrast, `Consume` begins
with the composite's own `CanConsume` precondition check, which compacts the
list first, as the counterexample shows.) -/
theorem multi_consume_forwards_all {T σ : Type} (M : Machine T σ) (ss : List σ)
    (v : T) :
    ((multiConsumer M).consume ss v).length = ss.length
      ∧ ∀ i : Nat, ((multiConsumer M).consume ss v)[i]?
          = (ss[i]?).map fun s => M.consume s v := by
  constructor
  · show (ss.map _).length = _
    simp
  · intro i
    show (ss.map _)[i]? = _
    simp

end Consume2
